import Mathlib

/-!
# Verification of the gcr-cleaner retention engine

Shallow embedding of `pkg/gcrcleaner/cleaner.go` (the full variant with
dry-run support and global tag exceptions): the retention decision
(`shouldDelete`), the per-repository keep-set construction in `Clean`,
the concurrent digest-deletion scheduler (worker pool with fail-fast
suppression and deduplicated error recording), and the run coordinator.

Go maps `map[string]bool` used as sets are embedded as `List String`
with `List.contains` membership; the error map `map[string]error` is an
association list `List (String × String)` from unwrapped cause to the
full error message.  Machine integers stay in `Nat`/`Int` (no overflow
is relevant at registry scales).  Log output and the float rendering in
`getSize` are not modelled; status lines are modelled structurally as a
record carrying the counts that `fmt.Sprintf` would interpolate.
-/

namespace GcrCleaner

/-- `fmt.Sprintf("%s:%s", n, t)` — the fully qualified tag name used as
the key of the keep set and the exception maps. -/
def qualifiedTag (n t : String) : String := n ++ ":" ++ t

/-- `gcrgoogle.ManifestInfo` as used by the cleaner: the list of tags
pointing at the manifest and its size in bytes. -/
structure ManifestInfo where
  tags : List String
  size : Nat
  deriving Repr, DecidableEq

/-- The `for _, t := range m.Tags` loop inside `shouldDelete`: at the
first tag whose qualified name is in `keeping`, add the manifest size to
the running total and answer `false`; if the loop finishes, answer
`true`. -/
def shouldDeleteTags (n : String) (size : Nat) (keeping : List String)
    (total : Int) : List String → Bool × Int
  | [] => (true, total)
  | t :: ts =>
    if keeping.contains (qualifiedTag n t) then (false, total + (size : Int))
    else shouldDeleteTags n size keeping total ts

/-- `Cleaner.shouldDelete` (cleaner.go lines 211–224): returns `true`
when the manifest has no tags, or has tags none of which is in
`keeping`; when it returns `false` it has added the manifest size to
`*total`. -/
def shouldDelete (n : String) (m : ManifestInfo) (keeping : List String)
    (total : Int) : Bool × Int :=
  if m.tags.length > 0 then shouldDeleteTags n m.size keeping total m.tags
  else (true, total)

/-- The retention loop of `Clean` (cleaner.go lines 117–124):
`for t := len(tags.Tags)-1; t >= control; t--`.  The argument `tp` is
`t + 1` (so `tp = 0` encodes `t = -1`, where the loop has necessarily
stopped because `control ≥ 0`).  On each iteration: if the bare tag is a
global tag exception or the qualified tag is already in the (aliased)
tag-exception map `keeping`, `control` drops by one with floor zero
(`Nat` subtraction); the qualified tag is then unconditionally inserted
into `keeping`. -/
def retentionAux (name : String) (globalTagExcept : List String)
    (tags : Array String) : Nat → Nat → List String → List String
  | 0, _, keeping => keeping
  | tp + 1, control, keeping =>
    if tp ≥ control then
      let tag := tags.getD tp ""
      let tagName := qualifiedTag name tag
      let control' :=
        if globalTagExcept.contains tag || keeping.contains tagName then
          control - 1
        else control
      retentionAux name globalTagExcept tags tp control' (tagName :: keeping)
    else keeping

/-- The keep-set construction of `Clean` (cleaner.go lines 107–124):
`keeping` starts as the cleaner's `tagExcept` map (the Go assignment
`var keeping = c.tagExcept` aliases the map, so insertions land in the
shared exception map — modelled by returning the grown list, which the
coordinator threads to the next repository), `control` is
`max(len(tags)-keep, 0)` reset to `0` for repositories in `repoExcept`,
and the walk of `retentionAux` runs. -/
def buildKeepSet (name : String) (repoExcept globalTagExcept : List String)
    (keepAmt : Nat) (tagExcept : List String) (tags : Array String) :
    List String :=
  let control := max (tags.size - keepAmt) 0
  let control := if repoExcept.contains name then 0 else control
  retentionAux name globalTagExcept tags tags.size control tagExcept

/-! ## Basic facts about `shouldDelete` -/

theorem shouldDeleteTags_eq_true_iff (n : String) (size : Nat)
    (keeping : List String) (total : Int) (ts : List String) :
    (shouldDeleteTags n size keeping total ts).1 = true ↔
      ∀ t ∈ ts, keeping.contains (qualifiedTag n t) = false := by
  induction ts with
  | nil => simp [shouldDeleteTags]
  | cons t ts ih =>
    rw [shouldDeleteTags]
    by_cases h : keeping.contains (qualifiedTag n t) = true
    · rw [if_pos h]
      constructor
      · intro hf
        exact absurd hf Bool.false_ne_true
      · intro hall
        have h2 := hall t (List.mem_cons_self t ts)
        rw [h] at h2
        exact absurd h2.symm Bool.false_ne_true
    · have h' : keeping.contains (qualifiedTag n t) = false := by
        cases hc : keeping.contains (qualifiedTag n t)
        · rfl
        · exact absurd hc h
      rw [if_neg h, ih]
      constructor
      · intro hall t' ht'
        rcases List.mem_cons.mp ht' with heq | ht'
        · rw [heq]
          exact h'
        · exact hall t' ht'
      · intro hall t' ht'
        exact hall t' (List.mem_cons_of_mem _ ht')

/-- **C1.** `shouldDelete` answers `true` exactly when the manifest has
zero tags, or has one or more tags and none of their fully-qualified
names is in the keep set; and an untagged manifest is deletable against
every keep set whatsoever — in particular against the keep set of a
repository in the repo-exception set. -/
theorem shouldDelete_true_iff (n : String) (m : ManifestInfo)
    (keeping : List String) (total : Int) :
    ((shouldDelete n m keeping total).1 = true ↔
      (m.tags = [] ∨
        (m.tags ≠ [] ∧
          ∀ t ∈ m.tags, keeping.contains (qualifiedTag n t) = false))) ∧
    (m.tags = [] → ∀ ks : List String, (shouldDelete n m ks total).1 = true) := by
  constructor
  · by_cases hlen : m.tags.length > 0
    · have hne : m.tags ≠ [] := by
        intro h
        rw [h] at hlen
        simp at hlen
      rw [shouldDelete, if_pos hlen, shouldDeleteTags_eq_true_iff]
      constructor
      · intro h
        exact Or.inr ⟨hne, h⟩
      · rintro (h | ⟨_, h⟩)
        · exact absurd h hne
        · exact h
    · have hnil : m.tags = [] := by
        cases h : m.tags with
        | nil => rfl
        | cons a as =>
          rw [h] at hlen
          simp at hlen
      rw [shouldDelete, if_neg hlen]
      simp [hnil]
  · intro hnil ks
    have hlen : ¬ m.tags.length > 0 := by
      rw [hnil]
      simp
    rw [shouldDelete, if_neg hlen]

/-- **C1 witness.** An untagged manifest is deletable against a
non-empty keep set. -/
theorem shouldDelete_true_iff_witness :
    (shouldDelete "b/r" ⟨[], 7⟩ ["b/r:keep"] 0).1 = true :=
  (shouldDelete_true_iff "b/r" ⟨[], 7⟩ ["b/r:keep"] 0).2 rfl ["b/r:keep"]

/-! ## The retention loop -/

theorem retentionAux_mono (name : String) (gte : List String)
    (tags : Array String) (tp control : Nat) (keeping : List String)
    (x : String) (hx : keeping.contains x = true) :
    (retentionAux name gte tags tp control keeping).contains x = true := by
  induction tp generalizing control keeping with
  | zero => exact hx
  | succ tp ih =>
    rw [retentionAux]
    by_cases h : tp ≥ control
    · rw [if_pos h]
      apply ih
      rw [List.contains_cons, hx, Bool.or_true]
    · rw [if_neg h]
      exact hx

theorem retentionAux_covers (name : String) (gte : List String)
    (tags : Array String) (tp : Nat) :
    ∀ (control : Nat) (keeping : List String) (i : Nat),
      control ≤ i → i < tp →
      (retentionAux name gte tags tp control keeping).contains
        (qualifiedTag name (tags.getD i "")) = true := by
  induction tp with
  | zero =>
    intro control keeping i _ hi
    exact absurd hi (Nat.not_lt_zero i)
  | succ tp ih =>
    intro control keeping i hci hi
    rw [retentionAux]
    by_cases h : tp ≥ control
    · rw [if_pos h]
      rcases Nat.lt_succ_iff_lt_or_eq.mp hi with hlt | heq
      · refine ih _ _ i ?_ hlt
        split <;> omega
      · subst heq
        apply retentionAux_mono
        rw [List.contains_cons]
        simp [qualifiedTag]
    · omega

theorem keepSet_top_mem (name : String)
    (repoExcept gte tagExcept : List String) (keepAmt : Nat)
    (tags : Array String) (hrepo : repoExcept.contains name = false)
    (i : Nat) (hi : tags.size - min keepAmt tags.size ≤ i)
    (hlt : i < tags.size) :
    (buildKeepSet name repoExcept gte keepAmt tagExcept tags).contains
      (qualifiedTag name (tags.getD i "")) = true := by
  rw [buildKeepSet]
  simp only [hrepo, Bool.false_eq_true, if_false]
  exact retentionAux_covers name gte tags tags.size _ tagExcept i
    (by omega) hlt

/-- **C2.** For a repository not in the repo-exception set, every one of
the `min(keepCount, tagCount)` highest-ordered tags (indices from
`tagCount - min(keepCount, tagCount)` up) has its fully-qualified name
in the keep set built by the retention loop. -/
theorem keepSet_contains_top_tags (name : String)
    (repoExcept gte tagExcept : List String) (keepAmt : Nat)
    (tags : Array String) (hrepo : repoExcept.contains name = false)
    (i : Nat) (hi : tags.size - min keepAmt tags.size ≤ i)
    (hlt : i < tags.size) :
    (buildKeepSet name repoExcept gte keepAmt tagExcept tags).contains
      (qualifiedTag name (tags.getD i "")) = true :=
  keepSet_top_mem name repoExcept gte tagExcept keepAmt tags hrepo i hi hlt

/-- **C2 witness.** Concrete instance: three tags, `keepAmt = 2`, the
top tag `t3` is kept. -/
theorem keepSet_contains_top_tags_witness :
    (buildKeepSet "b/r" [] [] 2 [] #["t1", "t2", "t3"]).contains
      (qualifiedTag "b/r" "t3") = true :=
  keepSet_contains_top_tags "b/r" [] [] [] 2 #["t1", "t2", "t3"]
    (by decide) 2 (by decide) (by decide)

/-- **C3 counterexample.** `"latest"` is a global tag exception and is a
tag of the repository, but it sorts below the walked window (tags
ascending `["latest", "v1", "v2"]`, `keepAmt = 2`, so the walk stops at
index 1) and its fully-qualified name is *not* in the keep set. -/
theorem globalTag_below_window_not_kept :
    (["latest"] : List String).contains "latest" = true ∧
    (#["latest", "v1", "v2"] : Array String).contains "latest" = true ∧
    (buildKeepSet "b/r" [] ["latest"] 2 [] #["latest", "v1", "v2"]).contains
      (qualifiedTag "b/r" "latest") = false := by
  refine ⟨rfl, rfl, ?_⟩
  rfl

/-- **C3 amended.** A tag whose bare name is in the global-tag-exception
set is guaranteed in the keep set only when its position lies in the
walked window — in particular whenever it is among the top
`min(keepCount, tagCount)` positions of the ascending tag order; a
globally excepted tag ordered below the window is not added. -/
theorem globalTag_in_window_kept (name : String)
    (repoExcept gte tagExcept : List String) (keepAmt : Nat)
    (tags : Array String) (hrepo : repoExcept.contains name = false)
    (i : Nat) (_hgte : gte.contains (tags.getD i "") = true)
    (hi : tags.size - min keepAmt tags.size ≤ i) (hlt : i < tags.size) :
    (buildKeepSet name repoExcept gte keepAmt tagExcept tags).contains
      (qualifiedTag name (tags.getD i "")) = true :=
  keepSet_top_mem name repoExcept gte tagExcept keepAmt tags hrepo i hi hlt

/-- **C3 amended witness.** `"latest"` at the top position is kept. -/
theorem globalTag_in_window_kept_witness :
    (buildKeepSet "b/r" [] ["latest"] 2 [] #["v1", "v2", "latest"]).contains
      (qualifiedTag "b/r" "latest") = true :=
  globalTag_in_window_kept "b/r" [] ["latest"] [] 2 #["v1", "v2", "latest"]
    (by decide) 2 (by decide) (by decide) (by decide)

/-- **C4 counterexample.** Repository `"b/r"` is in the repo-exception
set; tag `"v1"` matches no tag exception, no in-use entry and no global
tag exception (both sets are empty here), yet its fully-qualified name
*is* in the keep set — the keep set of an exception repository holds
every tag, not only the exception matches. -/
theorem exceptionRepo_keepSet_not_only_matches :
    (["b/r"] : List String).contains "b/r" = true ∧
    ([] : List String).contains "v1" = false ∧
    (buildKeepSet "b/r" ["b/r"] [] 2 [] #["v1", "v2", "v3"]).contains
      (qualifiedTag "b/r" "v1") = true := by
  refine ⟨rfl, rfl, ?_⟩
  rfl

/-- **C4 amended.** For a repository in the repo-exception set,
`control` is set to `0`, so the walk covers every index and the keep set
contains the fully-qualified name of *every* tag of the repository (on
top of the tag-exception seed); consequently only untagged manifests
remain deletable there. -/
theorem exceptionRepo_keepSet_all_tags (name : String)
    (repoExcept gte tagExcept : List String) (keepAmt : Nat)
    (tags : Array String) (hrepo : repoExcept.contains name = true)
    (i : Nat) (hlt : i < tags.size) :
    (buildKeepSet name repoExcept gte keepAmt tagExcept tags).contains
      (qualifiedTag name (tags.getD i "")) = true := by
  rw [buildKeepSet]
  simp only [hrepo, if_true]
  exact retentionAux_covers name gte tags tags.size 0 tagExcept i
    (Nat.zero_le i) hlt

/-- **C4 amended witness.** The bottom tag `v1` of an exception
repository is kept. -/
theorem exceptionRepo_keepSet_all_tags_witness :
    (buildKeepSet "b/r" ["b/r"] [] 2 [] #["v1", "v2", "v3"]).contains
      (qualifiedTag "b/r" "v1") = true :=
  exceptionRepo_keepSet_all_tags "b/r" ["b/r"] [] [] 2 #["v1", "v2", "v3"]
    (by decide) 0 (by decide)

/-! ## The deletion scheduler (cleaner.go lines 100–170)

Each unit of work submitted with `pool.Submit` runs the closure of lines
139–164.  All accesses to the shared error map `errs` and the counter
`del` are guarded by `errsLock` / `deletedLock`, so an interleaving at
the granularity of the four lock-protected sections is a faithful model
of the pool: (1) the fail-fast read of `errs`, (2) the `deleteOne` call
(no shared state), (3) the guarded insertion into `errs`, (4) the `del`
increment.  A schedule is a list of task indices; scheduling a task runs
its next atomic section. -/

/-- Observable events of one repository's deletion scheduler. -/
inductive Event where
  | check (t : Nat) (sawErr : Bool)
  | deleteCall (t : Nat) (ref : String) (failure : Option String)
  | record (t : Nat) (cause : String) (isNew : Bool)
  | incDel (t : Nat)
  deriving Repr, DecidableEq

/-- Program counter of one unit of work: before the fail-fast read,
before the `deleteOne` call, before the guarded error insertion (the
unwrapped cause in hand), before the `del` increment, or finished. -/
inductive PC where
  | start
  | toDelete
  | toRecord (cause : String)
  | toInc
  | done
  deriving Repr, DecidableEq

/-- Shared state of one repository's pool: the cause-keyed error map
(association list, insertion guarded by a membership test), the deleted
counter, every task's program counter, and the event log. -/
structure SchedState where
  errs : List (String × String)
  del : Nat
  pcs : List PC
  log : List Event
  deriving Repr, DecidableEq

/-- The message `deleteOne` wraps around a failing remote delete:
`fmt.Errorf("Failed to delete %s: %w", name, err)`. -/
def deleteErrMsg (ref cause : String) : String :=
  "Failed to delete " ++ ref ++ ": " ++ cause

/-- Pool state right after all submissions: every task at its fail-fast
read, no errors, `del = 0`. -/
def initSched (refs : List String) : SchedState :=
  { errs := [], del := 0, pcs := List.replicate refs.length PC.start,
    log := [] }

/-- Run the next atomic section of task `t` (the closure of cleaner.go
lines 139–164).  `oracle r = none` means `deleteOne r` succeeds,
`oracle r = some c` means it fails with unwrapped cause `c`. -/
def stepTask (oracle : String → Option String) (refs : List String)
    (s : SchedState) (t : Nat) : SchedState :=
  match s.pcs.getD t PC.done with
  | PC.start =>
    if s.errs.isEmpty then
      { s with pcs := s.pcs.set t PC.toDelete,
               log := s.log ++ [Event.check t false] }
    else
      { s with pcs := s.pcs.set t PC.done,
               log := s.log ++ [Event.check t true] }
  | PC.toDelete =>
    match oracle (refs.getD t "") with
    | none =>
      { s with pcs := s.pcs.set t PC.toInc,
               log := s.log ++ [Event.deleteCall t (refs.getD t "") none] }
    | some c =>
      { s with pcs := s.pcs.set t (PC.toRecord c),
               log := s.log ++ [Event.deleteCall t (refs.getD t "") (some c)] }
  | PC.toRecord c =>
    if (s.errs.map Prod.fst).contains c then
      { s with pcs := s.pcs.set t PC.toInc,
               log := s.log ++ [Event.record t c false] }
    else
      { s with errs := s.errs ++ [(c, deleteErrMsg (refs.getD t "") c)],
               pcs := s.pcs.set t PC.done,
               log := s.log ++ [Event.record t c true] }
  | PC.toInc =>
    { s with del := s.del + 1, pcs := s.pcs.set t PC.done,
             log := s.log ++ [Event.incDel t] }
  | PC.done => s

/-- Run a schedule from a given state. -/
def runSchedFrom (oracle : String → Option String) (refs : List String)
    (s : SchedState) (sched : List Nat) : SchedState :=
  sched.foldl (stepTask oracle refs) s

/-- Run a schedule from the freshly submitted pool. -/
def runSched (oracle : String → Option String) (refs : List String)
    (sched : List Nat) : SchedState :=
  runSchedFrom oracle refs (initSched refs) sched

/-- `pool.StopWait` has returned: every task has finished. -/
def completed (s : SchedState) : Bool :=
  s.pcs.all (fun pc => pc == PC.done)

/-- A schedule that finishes every task: each task gets four more turns,
enough to run any remaining sections (fail-fast read, delete, error
recording, increment). -/
def finishSched (n : Nat) : List Nat :=
  (List.range n).flatMap (fun t => [t, t, t, t])

/-! ### Generic step lemmas -/

theorem runSchedFrom_inv (oracle : String → Option String)
    (refs : List String) (P : SchedState → Prop)
    (hstep : ∀ s t, P s → P (stepTask oracle refs s t)) :
    ∀ (sched : List Nat) (s : SchedState), P s →
      P (runSchedFrom oracle refs s sched) := by
  intro sched
  induction sched with
  | nil => intro s hs; exact hs
  | cons t rest ih =>
    intro s hs
    exact ih (stepTask oracle refs s t) (hstep s t hs)

theorem getD_set_ne_pc (l : List PC) (t t' : Nat) (v : PC) (hne : t ≠ t') :
    (l.set t' v).getD t PC.done = l.getD t PC.done := by
  simp [List.getD, List.getElem?_set_ne (Ne.symm hne)]

theorem stepTask_errs (oracle : String → Option String) (refs : List String)
    (s : SchedState) (t : Nat) :
    (stepTask oracle refs s t).errs = s.errs ∨
      ∃ e, (stepTask oracle refs s t).errs = s.errs ++ [e] := by
  rcases hpc : s.pcs.getD t PC.done with _ | _ | c | _ | _ <;>
    simp only [stepTask, hpc] <;>
    first
      | trivial
      | (left; trivial)
      | (split <;> first | (left; rfl) | (right; exact ⟨_, rfl⟩))

theorem stepTask_errs_nonempty (oracle : String → Option String)
    (refs : List String) (s : SchedState) (t : Nat)
    (h : s.errs ≠ []) : (stepTask oracle refs s t).errs ≠ [] := by
  rcases stepTask_errs oracle refs s t with heq | ⟨e, heq⟩
  · rw [heq]; exact h
  · rw [heq]
    intro hc
    exact absurd (List.append_eq_nil.mp hc).1 h

theorem stepTask_log (oracle : String → Option String) (refs : List String)
    (s : SchedState) (t : Nat) :
    (stepTask oracle refs s t).log = s.log ∨
      ∃ e, (stepTask oracle refs s t).log = s.log ++ [e] := by
  rcases hpc : s.pcs.getD t PC.done with _ | _ | c | _ | _ <;>
    simp only [stepTask, hpc] <;>
    first
      | trivial
      | (left; trivial)
      | (right; exact ⟨_, rfl⟩)
      | (split <;> (right; exact ⟨_, rfl⟩))

theorem stepTask_pcs_length (oracle : String → Option String)
    (refs : List String) (s : SchedState) (t : Nat) :
    (stepTask oracle refs s t).pcs.length = s.pcs.length := by
  rcases hpc : s.pcs.getD t PC.done with _ | _ | c | _ | _ <;>
    simp only [stepTask, hpc]
  case start => split <;> simp
  case toDelete => rcases oracle (refs.getD t "") with _ | c <;> simp
  case toRecord => split <;> simp
  case toInc => simp

theorem stepTask_pc_other (oracle : String → Option String)
    (refs : List String) (s : SchedState) (t t' : Nat) (hne : t ≠ t') :
    (stepTask oracle refs s t').pcs.getD t PC.done =
      s.pcs.getD t PC.done := by
  rcases hpc : s.pcs.getD t' PC.done with _ | _ | c | _ | _ <;>
    simp only [stepTask, hpc]
  case start => split <;> exact getD_set_ne_pc s.pcs t t' _ hne
  case toDelete =>
    rcases oracle (refs.getD t' "") with _ | c <;>
      exact getD_set_ne_pc s.pcs t t' _ hne
  case toRecord => split <;> exact getD_set_ne_pc s.pcs t t' _ hne
  case toInc => exact getD_set_ne_pc s.pcs t t' _ hne

/-! ### Fail-fast suppression -/

/-- The task index an event belongs to. -/
def Event.task : Event → Nat
  | Event.check t _ => t
  | Event.deleteCall t _ _ => t
  | Event.record t _ _ => t
  | Event.incDel t => t

/-- Whether an event is the first-time recording of an error cause. -/
def Event.isRecordNew : Event → Bool
  | Event.record _ _ true => true
  | _ => false

/-- Default event for out-of-range log lookups. -/
def junkEvent : Event := Event.incDel 0

theorem getD_set_self_pc (l : List PC) (t : Nat) (v : PC)
    (h : t < l.length) : (l.set t v).getD t PC.done = v := by
  simp [List.getD, List.getElem?_set_self h]

theorem lt_of_getD_ne_done (l : List PC) (t : Nat)
    (h : l.getD t PC.done ≠ PC.done) : t < l.length := by
  by_contra hge
  exact h (List.getD_eq_default l PC.done (Nat.le_of_not_lt hge))

theorem getD_append_last (l : List Event) (e d : Event) :
    (l ++ [e]).getD l.length d = e := by
  rw [List.getD_eq_getElem?_getD, List.getElem?_append_right (Nat.le_refl _)]
  simp

/-- The fail-fast invariant: a task whose fail-fast read is still ahead
has produced no events, and a task whose fail-fast read observed a
non-empty error map is finished and has issued no deletion call. -/
def FailFastInv (s : SchedState) : Prop :=
  ∀ t : Nat,
    (s.pcs.getD t PC.done = PC.start → ∀ e ∈ s.log, e.task ≠ t) ∧
    (Event.check t true ∈ s.log →
      s.pcs.getD t PC.done = PC.done ∧
      ∀ r f, Event.deleteCall t r f ∉ s.log)

theorem initSched_failFastInv (refs : List String) :
    FailFastInv (initSched refs) := by
  intro t
  constructor
  · intro _ e he
    exact absurd he (List.not_mem_nil e)
  · intro hchk
    exact absurd hchk (List.not_mem_nil _)

theorem failFastInv_aux (s : SchedState)
    (E : List (String × String)) (D : Nat) (tt : Nat) (v : PC) (e : Event)
    (hv : v ≠ PC.start) (htask : e.task = tt)
    (hct : e = Event.check tt true →
      v = PC.done ∧ s.pcs.getD tt PC.done = PC.start)
    (hpcnd : s.pcs.getD tt PC.done ≠ PC.done)
    (hinv : FailFastInv s) :
    FailFastInv ⟨E, D, s.pcs.set tt v, s.log ++ [e]⟩ := by
  intro t
  constructor
  · intro hstart e' he'
    by_cases htt : t = tt
    · subst htt
      rw [getD_set_self_pc _ _ _ (lt_of_getD_ne_done _ _ hpcnd)] at hstart
      exact absurd hstart hv
    · rw [getD_set_ne_pc _ _ _ _ htt] at hstart
      rcases List.mem_append.mp he' with hold | hnew
      · exact (hinv t).1 hstart e' hold
      · rw [List.mem_singleton] at hnew
        subst hnew
        rw [htask]
        exact fun hc => htt hc.symm
  · intro hchk
    rcases List.mem_append.mp hchk with hold | hnew
    · obtain ⟨hdone, hnodel⟩ := (hinv t).2 hold
      by_cases htt : t = tt
      · subst htt
        exact absurd hdone hpcnd
      · refine ⟨by rw [getD_set_ne_pc _ _ _ _ htt]; exact hdone, ?_⟩
        intro r f hmem
        rcases List.mem_append.mp hmem with ho | hn
        · exact hnodel r f ho
        · rw [List.mem_singleton] at hn
          have hta : (Event.deleteCall t r f).task = tt := by rw [hn, htask]
          simp only [Event.task] at hta
          exact htt hta
    · rw [List.mem_singleton] at hnew
      have he : e = Event.check t true := hnew.symm
      have htt : t = tt := by
        have := htask
        rw [he] at this
        simpa [Event.task] using this
      subst htt
      obtain ⟨hvdone, hstart⟩ := hct he
      refine ⟨?_, ?_⟩
      · rw [getD_set_self_pc _ _ _ (lt_of_getD_ne_done _ _ hpcnd), hvdone]
      · intro r f hmem
        rcases List.mem_append.mp hmem with ho | hn
        · have := (hinv t).1 hstart _ ho
          simp [Event.task] at this
        · rw [List.mem_singleton, he] at hn
          exact absurd hn (by simp)

theorem stepTask_failFastInv (oracle : String → Option String)
    (refs : List String) (s : SchedState) (tt : Nat)
    (hinv : FailFastInv s) : FailFastInv (stepTask oracle refs s tt) := by
  rcases hpc : s.pcs.getD tt PC.done with _ | _ | c | _ | _ <;>
    simp only [stepTask, hpc]
  case start =>
    split
    · exact failFastInv_aux s s.errs s.del tt PC.toDelete
        (Event.check tt false) (by simp) rfl (by intro h; exact absurd h (by simp))
        (by rw [hpc]; simp) hinv
    · exact failFastInv_aux s s.errs s.del tt PC.done
        (Event.check tt true) (by simp) rfl (fun _ => ⟨rfl, hpc⟩)
        (by rw [hpc]; simp) hinv
  case toDelete =>
    rcases oracle (refs.getD tt "") with _ | c
    · exact failFastInv_aux s s.errs s.del tt PC.toInc
        (Event.deleteCall tt (refs.getD tt "") none) (by simp) rfl
        (by intro h; exact absurd h (by simp)) (by rw [hpc]; simp) hinv
    · exact failFastInv_aux s s.errs s.del tt (PC.toRecord c)
        (Event.deleteCall tt (refs.getD tt "") (some c)) (by simp) rfl
        (by intro h; exact absurd h (by simp)) (by rw [hpc]; simp) hinv
  case toRecord =>
    split
    · exact failFastInv_aux s s.errs s.del tt PC.toInc
        (Event.record tt c false) (by simp) rfl
        (by intro h; exact absurd h (by simp)) (by rw [hpc]; simp) hinv
    · exact failFastInv_aux s (s.errs ++ [(c, deleteErrMsg (refs.getD tt "") c)])
        s.del tt PC.done (Event.record tt c true) (by simp) rfl
        (by intro h; exact absurd h (by simp)) (by rw [hpc]; simp) hinv
  case toInc =>
    exact failFastInv_aux s s.errs (s.del + 1) tt PC.done
      (Event.incDel tt) (by simp) rfl
      (by intro h; exact absurd h (by simp)) (by rw [hpc]; simp) hinv
  case done => exact hinv

theorem runSched_failFastInv (oracle : String → Option String)
    (refs : List String) (sched : List Nat) :
    FailFastInv (runSched oracle refs sched) :=
  runSchedFrom_inv oracle refs FailFastInv
    (fun s t h => stepTask_failFastInv oracle refs s t h) sched
    (initSched refs) (initSched_failFastInv refs)

/-- Ordering invariant: a recorded error forces every later fail-fast
read to observe it.  Part one: a first-time recording implies the error
map is non-empty; part two: any check event positioned after a
first-time recording carries the flag `true`. -/
def LogOrderInv (s : SchedState) : Prop :=
  ((∃ e ∈ s.log, e.isRecordNew = true) → s.errs ≠ []) ∧
  (∀ i j t b, i < j → (s.log.getD i junkEvent).isRecordNew = true →
    s.log.getD j junkEvent = Event.check t b → b = true)

theorem isRecordNew_getD_lt (l : List Event) (i : Nat)
    (h : (l.getD i junkEvent).isRecordNew = true) : i < l.length := by
  by_contra hge
  rw [List.getD_eq_default l junkEvent (Nat.le_of_not_lt hge)] at h
  simp [junkEvent, Event.isRecordNew] at h

theorem isRecordNew_getD_mem (l : List Event) (i : Nat)
    (h : (l.getD i junkEvent).isRecordNew = true) :
    ∃ e ∈ l, e.isRecordNew = true := by
  have hlt := isRecordNew_getD_lt l i h
  refine ⟨l.getD i junkEvent, ?_, h⟩
  rw [List.getD_eq_getElem l junkEvent hlt]
  exact l.getElem_mem hlt

theorem logOrderInv_aux (s : SchedState)
    (E : List (String × String)) (D : Nat) (pcs' : List PC) (e : Event)
    (hmono : s.errs ≠ [] → E ≠ [])
    (hrecnew : e.isRecordNew = true → E ≠ [])
    (hchkflag : ∀ t, e = Event.check t false → s.errs = [])
    (hinv : LogOrderInv s) :
    LogOrderInv ⟨E, D, pcs', s.log ++ [e]⟩ := by
  constructor
  · rintro ⟨e', he', hrec⟩
    rcases List.mem_append.mp he' with hold | hnew
    · exact hmono (hinv.1 ⟨e', hold, hrec⟩)
    · rw [List.mem_singleton] at hnew
      subst hnew
      exact hrecnew hrec
  · intro i j t b hij hrec hchk
    have hi : i < s.log.length := by
      have hlt := isRecordNew_getD_lt _ _ hrec
      rw [List.length_append, List.length_singleton] at hlt
      by_contra hge
      have hile : s.log.length ≤ i := Nat.le_of_not_lt hge
      have : i = s.log.length := by omega
      subst this
      rw [getD_append_last] at hrec
      have := hchkflag
      -- e is at position `s.log.length`; j > i is out of range, so the
      -- check hypothesis must come from the appended event or junk
      have hj : s.log.length + 1 ≤ j := by omega
      rw [List.getD_eq_default _ junkEvent
        (by rw [List.length_append, List.length_singleton]; exact hj)] at hchk
      simp [junkEvent] at hchk
    rw [List.getD_append _ _ _ _ hi] at hrec
    by_cases hj : j < s.log.length
    · rw [List.getD_append _ _ _ _ hj] at hchk
      exact hinv.2 i j t b hij hrec hchk
    · by_cases hj2 : j = s.log.length
      · subst hj2
        rw [getD_append_last] at hchk
        subst hchk
        by_cases hb : b = true
        · exact hb
        · have hbf : b = false := by
            cases b
            · rfl
            · exact absurd rfl hb
          subst hbf
          have hempty := hchkflag t rfl
          have hne := hinv.1 (isRecordNew_getD_mem _ _ hrec)
          exact absurd hempty hne
      · have hj3 : s.log.length + 1 ≤ j := by omega
        rw [List.getD_eq_default _ junkEvent
          (by rw [List.length_append, List.length_singleton]; exact hj3)] at hchk
        simp [junkEvent] at hchk

theorem initSched_logOrderInv (refs : List String) :
    LogOrderInv (initSched refs) := by
  constructor
  · rintro ⟨e, he, _⟩
    exact absurd he (List.not_mem_nil e)
  · intro i j t b _ hrec _
    have := isRecordNew_getD_lt _ _ hrec
    simp [initSched] at this

theorem stepTask_logOrderInv (oracle : String → Option String)
    (refs : List String) (s : SchedState) (tt : Nat)
    (hinv : LogOrderInv s) : LogOrderInv (stepTask oracle refs s tt) := by
  rcases hpc : s.pcs.getD tt PC.done with _ | _ | c | _ | _ <;>
    simp only [stepTask, hpc]
  case start =>
    split
    case isTrue hempty =>
      refine logOrderInv_aux s s.errs s.del _ _ (fun h => h)
        (by simp [Event.isRecordNew]) ?_ hinv
      intro t _
      exact List.isEmpty_iff.mp hempty
    case isFalse hempty =>
      refine logOrderInv_aux s s.errs s.del _ _ (fun h => h)
        (by simp [Event.isRecordNew]) ?_ hinv
      intro t hfe
      exact absurd hfe (by simp)
  case toDelete =>
    rcases oracle (refs.getD tt "") with _ | c <;>
      exact logOrderInv_aux s s.errs s.del _ _ (fun h => h)
        (by simp [Event.isRecordNew]) (fun t hfe => absurd hfe (by simp)) hinv
  case toRecord =>
    split
    · exact logOrderInv_aux s s.errs s.del _ _ (fun h => h)
        (by simp [Event.isRecordNew]) (fun t hfe => absurd hfe (by simp)) hinv
    · refine logOrderInv_aux s _ s.del _ _ ?_ ?_
        (fun t hfe => absurd hfe (by simp)) hinv
      · intro _ hc
        exact absurd (List.append_eq_nil.mp hc).1 (by simp_all)
      · intro _ hc
        exact absurd (List.append_eq_nil.mp hc).1 (by simp_all)
  case toInc =>
    exact logOrderInv_aux s s.errs (s.del + 1) _ _ (fun h => h)
      (by simp [Event.isRecordNew]) (fun t hfe => absurd hfe (by simp)) hinv
  case done => exact hinv

theorem runSched_logOrderInv (oracle : String → Option String)
    (refs : List String) (sched : List Nat) :
    LogOrderInv (runSched oracle refs sched) :=
  runSchedFrom_inv oracle refs LogOrderInv
    (fun s t h => stepTask_logOrderInv oracle refs s t h) sched
    (initSched refs) (initSched_logOrderInv refs)

/-! ### Completion: `pool.StopWait` lets every submitted task finish -/

/-- Remaining atomic sections of a task (an upper bound). -/
def PC.rank : PC → Nat
  | PC.start => 4
  | PC.toDelete => 3
  | PC.toRecord _ => 2
  | PC.toInc => 1
  | PC.done => 0

theorem PC.rank_le_four (pc : PC) : pc.rank ≤ 4 := by
  cases pc <;> simp [PC.rank]

theorem PC.eq_done_of_rank_zero (pc : PC) (h : pc.rank = 0) : pc = PC.done := by
  cases pc <;> simp [PC.rank] at h ⊢

theorem stepTask_rank_self (oracle : String → Option String)
    (refs : List String) (s : SchedState) (t : Nat) :
    ((stepTask oracle refs s t).pcs.getD t PC.done).rank ≤
      (s.pcs.getD t PC.done).rank - 1 := by
  rcases hpc : s.pcs.getD t PC.done with _ | _ | c | _ | _ <;>
    simp only [stepTask, hpc]
  case start =>
    have hlt := lt_of_getD_ne_done s.pcs t (by rw [hpc]; simp)
    split <;> simp [List.getD, List.getElem?_set_self hlt, PC.rank]
  case toDelete =>
    have hlt := lt_of_getD_ne_done s.pcs t (by rw [hpc]; simp)
    rcases oracle (refs.getD t "") with _ | c <;>
      simp [List.getD, List.getElem?_set_self hlt, PC.rank]
  case toRecord =>
    have hlt := lt_of_getD_ne_done s.pcs t (by rw [hpc]; simp)
    split <;> simp [List.getD, List.getElem?_set_self hlt, PC.rank]
  case toInc =>
    have hlt := lt_of_getD_ne_done s.pcs t (by rw [hpc]; simp)
    simp [List.getD, List.getElem?_set_self hlt, PC.rank]
  case done => simp [PC.rank]

theorem run4_done (oracle : String → Option String) (refs : List String)
    (s : SchedState) (t : Nat) :
    (runSchedFrom oracle refs s [t, t, t, t]).pcs.getD t PC.done =
      PC.done := by
  have h0 := PC.rank_le_four (s.pcs.getD t PC.done)
  have h1 := stepTask_rank_self oracle refs s t
  have h2 := stepTask_rank_self oracle refs (stepTask oracle refs s t) t
  have h3 := stepTask_rank_self oracle refs
    (stepTask oracle refs (stepTask oracle refs s t) t) t
  have h4 := stepTask_rank_self oracle refs
    (stepTask oracle refs (stepTask oracle refs (stepTask oracle refs s t) t) t) t
  apply PC.eq_done_of_rank_zero
  show ((stepTask oracle refs (stepTask oracle refs (stepTask oracle refs
    (stepTask oracle refs s t) t) t) t).pcs.getD t PC.done).rank = 0
  omega

theorem stepTask_done_stable (oracle : String → Option String)
    (refs : List String) (s : SchedState) (t t' : Nat)
    (h : s.pcs.getD t PC.done = PC.done) :
    (stepTask oracle refs s t').pcs.getD t PC.done = PC.done := by
  by_cases htt : t = t'
  · subst htt
    simp only [stepTask, h]
  · rw [stepTask_pc_other oracle refs s t t' htt]
    exact h

theorem runSchedFrom_done_stable (oracle : String → Option String)
    (refs : List String) (sched : List Nat) (s : SchedState) (t : Nat)
    (h : s.pcs.getD t PC.done = PC.done) :
    (runSchedFrom oracle refs s sched).pcs.getD t PC.done = PC.done :=
  runSchedFrom_inv oracle refs (fun s' => s'.pcs.getD t PC.done = PC.done)
    (fun s' t' h' => stepTask_done_stable oracle refs s' t t' h') sched s h

theorem runSchedFrom_pcs_length (oracle : String → Option String)
    (refs : List String) (sched : List Nat) (s : SchedState) :
    (runSchedFrom oracle refs s sched).pcs.length = s.pcs.length := by
  induction sched generalizing s with
  | nil => rfl
  | cons t rest ih =>
    show (runSchedFrom oracle refs (stepTask oracle refs s t) rest).pcs.length
      = s.pcs.length
    rw [ih, stepTask_pcs_length]

theorem finishSched_succ (n : Nat) :
    finishSched (n + 1) = finishSched n ++ [n, n, n, n] := by
  simp [finishSched, List.range_succ]

theorem runSchedFrom_append (oracle : String → Option String)
    (refs : List String) (s : SchedState) (l1 l2 : List Nat) :
    runSchedFrom oracle refs s (l1 ++ l2) =
      runSchedFrom oracle refs (runSchedFrom oracle refs s l1) l2 :=
  List.foldl_append _ _ l1 l2

theorem runSchedFrom_finish_done (oracle : String → Option String)
    (refs : List String) :
    ∀ (n : Nat) (s : SchedState) (t : Nat), t < n →
      (runSchedFrom oracle refs s (finishSched n)).pcs.getD t PC.done =
        PC.done := by
  intro n
  induction n with
  | zero =>
    intro s t ht
    exact absurd ht (Nat.not_lt_zero t)
  | succ n ih =>
    intro s t ht
    rw [finishSched_succ, runSchedFrom_append]
    rcases Nat.lt_succ_iff_lt_or_eq.mp ht with hlt | heq
    · exact runSchedFrom_done_stable oracle refs _ _ t (ih s t hlt)
    · subst heq
      exact run4_done oracle refs _ t

theorem beq_done_iff (pc : PC) : (pc == PC.done) = true ↔ pc = PC.done := by
  simp [beq_iff_eq]

theorem runSchedFrom_finish_completed (oracle : String → Option String)
    (refs : List String) (s : SchedState) :
    completed (runSchedFrom oracle refs s (finishSched s.pcs.length)) =
      true := by
  rw [completed, List.all_eq_true]
  intro pc hmem
  obtain ⟨i, hi, heq⟩ := List.getElem_of_mem hmem
  rw [beq_done_iff, ← heq]
  have hlen := runSchedFrom_pcs_length oracle refs (finishSched s.pcs.length) s
  have hdone := runSchedFrom_finish_done oracle refs s.pcs.length s i
    (by rw [← hlen]; exact hi)
  rw [List.getD_eq_getElem _ PC.done hi] at hdone
  exact hdone

/-- **C5.** Fail-fast suppression: in any interleaving of one
repository's deletion pool, a check event positioned after a first-time
error recording necessarily observed the error (`b = true`), every task
whose fail-fast read observed an error issues no deletion call at all,
and from any reached state the pool can run every submitted task to
completion (`StopWait` semantics: in-flight work is never aborted). -/
theorem failFast_suppression (oracle : String → Option String)
    (refs : List String) (sched : List Nat) (i j t tr : Nat) (c : String)
    (b : Bool)
    (hrec : (runSched oracle refs sched).log.getD i junkEvent =
      Event.record tr c true)
    (hij : i < j)
    (hchk : (runSched oracle refs sched).log.getD j junkEvent =
      Event.check t b) :
    b = true ∧
    (∀ r f, Event.deleteCall t r f ∉ (runSched oracle refs sched).log) ∧
    completed (runSchedFrom oracle refs (runSched oracle refs sched)
      (finishSched (runSched oracle refs sched).pcs.length)) = true := by
  have hOrd := runSched_logOrderInv oracle refs sched
  have hFF := runSched_failFastInv oracle refs sched
  have hrecnew :
      ((runSched oracle refs sched).log.getD i junkEvent).isRecordNew =
        true := by
    rw [hrec]
    rfl
  have hb : b = true := hOrd.2 i j t b hij hrecnew hchk
  subst hb
  have hjlt : j < (runSched oracle refs sched).log.length := by
    by_contra hge
    rw [List.getD_eq_default _ junkEvent (Nat.le_of_not_lt hge)] at hchk
    simp [junkEvent] at hchk
  have hmem : Event.check t true ∈ (runSched oracle refs sched).log := by
    rw [← hchk, List.getD_eq_getElem _ junkEvent hjlt]
    exact List.getElem_mem hjlt
  obtain ⟨-, hnodel⟩ := (hFF t).2 hmem
  exact ⟨rfl, hnodel, runSchedFrom_finish_completed oracle refs _⟩

/-- Deletion oracle that always fails with the same unwrapped cause. -/
def oracleFail : String → Option String := fun _ => some "permission denied"

/-- Two digest references of one repository. -/
def refsTwo : List String := ["b/r@d1", "b/r@d2"]

/-- **C5 witness.** Concrete schedule: task 0 runs to its first-time
error recording, then task 1 starts; task 1 observes the error, issues
no deletion call, and the pool still completes. -/
theorem failFast_suppression_witness :
    Event.deleteCall 1 "b/r@d2" (some "permission denied") ∉
      (runSched oracleFail refsTwo [0, 0, 0, 1]).log ∧
    completed (runSchedFrom oracleFail refsTwo
      (runSched oracleFail refsTwo [0, 0, 0, 1])
      (finishSched (runSched oracleFail refsTwo [0, 0, 0, 1]).pcs.length)) =
      true :=
  have h := failFast_suppression oracleFail refsTwo [0, 0, 0, 1] 2 3 1 0
    "permission denied" true (by decide) (by decide) (by decide)
  ⟨h.2.1 "b/r@d2" (some "permission denied"), h.2.2⟩

/-! ### Error deduplication -/

/-- Deduplication invariant: the cause-keyed error map has no duplicate
keys, every key stems from a failed deletion call, a task at its
recording step has its failed call in the log, and every failed call is
either still pending at its task's recording step or already keyed. -/
def DedupInv (s : SchedState) : Prop :=
  (s.errs.map Prod.fst).Nodup ∧
  (∀ c ∈ s.errs.map Prod.fst,
    ∃ t r, Event.deleteCall t r (some c) ∈ s.log) ∧
  (∀ t c, s.pcs.getD t PC.done = PC.toRecord c →
    ∃ r, Event.deleteCall t r (some c) ∈ s.log) ∧
  (∀ t r c, Event.deleteCall t r (some c) ∈ s.log →
    s.pcs.getD t PC.done = PC.toRecord c ∨ c ∈ s.errs.map Prod.fst)

theorem initSched_dedupInv (refs : List String) :
    DedupInv (initSched refs) := by
  refine ⟨List.nodup_nil, ?_, ?_, ?_⟩
  · intro c hc
    exact absurd hc (List.not_mem_nil c)
  · intro t c hrec
    have hsd : (List.replicate refs.length PC.start).getD t PC.done =
        PC.start ∨
        (List.replicate refs.length PC.start).getD t PC.done = PC.done := by
      by_cases hlt : t < refs.length
      · left
        rw [List.getD_eq_getElem _ _ (by simpa using hlt)]
        simp
      · right
        exact List.getD_eq_default _ _ (by simpa using Nat.le_of_not_lt hlt)
    have hrec' : (List.replicate refs.length PC.start).getD t PC.done =
        PC.toRecord c := hrec
    rcases hsd with h | h <;> rw [h] at hrec' <;> simp at hrec' 
  · intro t r c hm
    exact absurd hm (List.not_mem_nil _)

theorem dedupInv_auxA (s : SchedState) (D : Nat) (tt : Nat) (v : PC)
    (e : Event)
    (hnotrec : ∀ c, s.pcs.getD tt PC.done ≠ PC.toRecord c)
    (hpcnd : s.pcs.getD tt PC.done ≠ PC.done)
    (hv : ∀ c, v ≠ PC.toRecord c)
    (he : ∀ t r c, e ≠ Event.deleteCall t r (some c))
    (hinv : DedupInv s) :
    DedupInv ⟨s.errs, D, s.pcs.set tt v, s.log ++ [e]⟩ := by
  obtain ⟨hnd, hcause, hpcrec, hdel⟩ := hinv
  refine ⟨hnd, ?_, ?_, ?_⟩
  · intro c hc
    obtain ⟨t, r, hm⟩ := hcause c hc
    exact ⟨t, r, List.mem_append_left _ hm⟩
  · intro t c hrec
    by_cases htt : t = tt
    · subst htt
      rw [getD_set_self_pc _ _ _ (lt_of_getD_ne_done _ _ hpcnd)] at hrec
      exact absurd hrec (hv c)
    · rw [getD_set_ne_pc _ _ _ _ htt] at hrec
      obtain ⟨r, hm⟩ := hpcrec t c hrec
      exact ⟨r, List.mem_append_left _ hm⟩
  · intro t r c hm
    rcases List.mem_append.mp hm with ho | hn
    · rcases hdel t r c ho with hl | hr
      · by_cases htt : t = tt
        · subst htt
          exact absurd hl (hnotrec c)
        · left
          rw [getD_set_ne_pc _ _ _ _ htt]
          exact hl
      · right
        exact hr
    · rw [List.mem_singleton] at hn
      exact absurd hn.symm (he t r c)

theorem stepTask_dedupInv (oracle : String → Option String)
    (refs : List String) (s : SchedState) (tt : Nat)
    (hinv : DedupInv s) : DedupInv (stepTask oracle refs s tt) := by
  rcases hpc : s.pcs.getD tt PC.done with _ | _ | c0 | _ | _ <;>
    simp only [stepTask, hpc]
  case start =>
    split <;>
      exact dedupInv_auxA s s.del tt _ _ (by rw [hpc]; simp)
        (by rw [hpc]; simp) (by simp) (by simp) hinv
  case toDelete =>
    rcases horc : oracle (refs.getD tt "") with _ | c0
    · exact dedupInv_auxA s s.del tt _ _ (by rw [hpc]; simp)
        (by rw [hpc]; simp) (by simp) (by simp) hinv
    · obtain ⟨hnd, hcause, hpcrec, hdel⟩ := hinv
      have hlt := lt_of_getD_ne_done s.pcs tt (by rw [hpc]; simp)
      refine ⟨hnd, ?_, ?_, ?_⟩
      · intro c hc
        obtain ⟨t, r, hm⟩ := hcause c hc
        exact ⟨t, r, List.mem_append_left _ hm⟩
      · intro t c hrec
        by_cases htt : t = tt
        · subst htt
          rw [getD_set_self_pc _ _ _ hlt] at hrec
          injection hrec with hc
          subst hc
          exact ⟨refs.getD t "", List.mem_append_right _ (by simp)⟩
        · rw [getD_set_ne_pc _ _ _ _ htt] at hrec
          obtain ⟨r, hm⟩ := hpcrec t c hrec
          exact ⟨r, List.mem_append_left _ hm⟩
      · intro t r c hm
        rcases List.mem_append.mp hm with ho | hn
        · rcases hdel t r c ho with hl | hr
          · by_cases htt : t = tt
            · subst htt
              rw [hpc] at hl
              exact absurd hl (by simp)
            · left
              rw [getD_set_ne_pc _ _ _ _ htt]
              exact hl
          · right
            exact hr
        · rw [List.mem_singleton] at hn
          injection hn with ht hr hfail
          injection hfail with hc
          subst ht
          subst hc
          left
          rw [getD_set_self_pc _ _ _ hlt]
  case toRecord =>
    obtain ⟨hnd, hcause, hpcrec, hdel⟩ := hinv
    have hlt := lt_of_getD_ne_done s.pcs tt (by rw [hpc]; simp)
    split
    case isTrue hcontains =>
      refine ⟨hnd, ?_, ?_, ?_⟩
      · intro c hc
        obtain ⟨t, r, hm⟩ := hcause c hc
        exact ⟨t, r, List.mem_append_left _ hm⟩
      · intro t c hrec
        by_cases htt : t = tt
        · subst htt
          rw [getD_set_self_pc _ _ _ hlt] at hrec
          exact absurd hrec (by simp)
        · rw [getD_set_ne_pc _ _ _ _ htt] at hrec
          obtain ⟨r, hm⟩ := hpcrec t c hrec
          exact ⟨r, List.mem_append_left _ hm⟩
      · intro t r c hm
        rcases List.mem_append.mp hm with ho | hn
        · rcases hdel t r c ho with hl | hr
          · by_cases htt : t = tt
            · subst htt
              rw [hpc] at hl
              injection hl with hc
              subst hc
              right
              simpa using hcontains
            · left
              rw [getD_set_ne_pc _ _ _ _ htt]
              exact hl
          · right
            exact hr
        · rw [List.mem_singleton] at hn
          exact absurd hn (by simp)
    case isFalse hcontains =>
      have hc0notmem : c0 ∉ s.errs.map Prod.fst := by
        intro hmem
        exact hcontains (by simpa using hmem)
      refine ⟨?_, ?_, ?_, ?_⟩
      · rw [List.map_append]
        rw [List.nodup_append]
        refine ⟨hnd, by simp, ?_⟩
        intro a ha hb
        simp only [List.map_cons, List.map_nil, List.mem_singleton] at hb
        subst hb
        exact hc0notmem ha
      · intro c hc
        rw [List.map_append] at hc
        rcases List.mem_append.mp hc with hco | hcn
        · obtain ⟨t, r, hm⟩ := hcause c hco
          exact ⟨t, r, List.mem_append_left _ hm⟩
        · simp only [List.map_cons, List.map_nil, List.mem_singleton] at hcn
          subst hcn
          obtain ⟨r, hm⟩ := hpcrec tt c hpc
          exact ⟨tt, r, List.mem_append_left _ hm⟩
      · intro t c hrec
        by_cases htt : t = tt
        · subst htt
          rw [getD_set_self_pc _ _ _ hlt] at hrec
          exact absurd hrec (by simp)
        · rw [getD_set_ne_pc _ _ _ _ htt] at hrec
          obtain ⟨r, hm⟩ := hpcrec t c hrec
          exact ⟨r, List.mem_append_left _ hm⟩
      · intro t r c hm
        rcases List.mem_append.mp hm with ho | hn
        · rcases hdel t r c ho with hl | hr
          · by_cases htt : t = tt
            · subst htt
              rw [hpc] at hl
              injection hl with hc
              subst hc
              right
              rw [List.map_append]
              exact List.mem_append_right _ (by simp)
            · left
              rw [getD_set_ne_pc _ _ _ _ htt]
              exact hl
          · right
            rw [List.map_append]
            exact List.mem_append_left _ hr
        · rw [List.mem_singleton] at hn
          exact absurd hn (by simp)
  case toInc =>
    exact dedupInv_auxA s (s.del + 1) tt _ _ (by rw [hpc]; simp)
      (by rw [hpc]; simp) (by simp) (by simp) hinv
  case done => exact hinv

theorem runSched_dedupInv (oracle : String → Option String)
    (refs : List String) (sched : List Nat) :
    DedupInv (runSched oracle refs sched) :=
  runSchedFrom_inv oracle refs DedupInv
    (fun s t h => stepTask_dedupInv oracle refs s t h) sched
    (initSched refs) (initSched_dedupInv refs)

/-- `completed` gives `PC.done` at every index. -/
theorem completed_getD (s : SchedState) (h : completed s = true) (t : Nat) :
    s.pcs.getD t PC.done = PC.done := by
  by_cases hlt : t < s.pcs.length
  · rw [completed, List.all_eq_true] at h
    rw [List.getD_eq_getElem _ _ hlt]
    exact (beq_done_iff _).mp (h _ (List.getElem_mem hlt))
  · exact List.getD_eq_default _ _ (Nat.le_of_not_lt hlt)

/-- **C6.** Error deduplication: the final error map keys each distinct
unwrapped cause at most once (no duplicates), every key stems from an
actual failed deletion call, in a finished pool every failed deletion
call's cause is keyed, and the aggregated message list carries exactly
one entry per keyed cause. -/
theorem errorDedup (oracle : String → Option String) (refs : List String)
    (sched : List Nat) :
    ((runSched oracle refs sched).errs.map Prod.fst).Nodup ∧
    (∀ c, c ∈ (runSched oracle refs sched).errs.map Prod.fst →
      ∃ t r, Event.deleteCall t r (some c) ∈
        (runSched oracle refs sched).log) ∧
    (completed (runSched oracle refs sched) = true →
      ∀ t r c, Event.deleteCall t r (some c) ∈
          (runSched oracle refs sched).log →
        c ∈ (runSched oracle refs sched).errs.map Prod.fst) ∧
    ((runSched oracle refs sched).errs.map Prod.snd).length =
      ((runSched oracle refs sched).errs.map Prod.fst).length := by
  obtain ⟨hnd, hcause, hpcrec, hdel⟩ := runSched_dedupInv oracle refs sched
  refine ⟨hnd, hcause, ?_, by simp⟩
  intro hcomp t r c hm
  rcases hdel t r c hm with hl | hr
  · rw [completed_getD _ hcomp t] at hl
    exact absurd hl (by simp)
  · exact hr

/-- **C6 witness.** Both deletions fail with cause `"permission
denied"`; the finished pool keys the cause, and it arose from a real
failed call. -/
theorem errorDedup_witness :
    ("permission denied" ∈
      (runSched oracleFail refsTwo [0, 0, 0, 1, 1, 1, 1]).errs.map
        Prod.fst) ∧
    ((runSched oracleFail refsTwo [0, 0, 0, 1, 1, 1, 1]).errs.map
      Prod.fst).Nodup :=
  ⟨(errorDedup oracleFail refsTwo [0, 0, 0, 1, 1, 1, 1]).2.2.1 (by decide)
      0 "b/r@d1" "permission denied" (by decide),
    (errorDedup oracleFail refsTwo [0, 0, 0, 1, 1, 1, 1]).1⟩

/-! ### The deleted counter -/

/-- A task between its deletion call and its final bookkeeping action. -/
def PC.isPending : PC → Bool
  | PC.toRecord _ => true
  | PC.toInc => true
  | _ => false

/-- Whether an event is a digest deletion call. -/
def Event.isDeleteCall : Event → Bool
  | Event.deleteCall _ _ _ => true
  | _ => false

theorem length_filter_set (l : List PC) (p : PC → Bool) :
    ∀ (t : Nat) (v : PC), t < l.length →
      ((l.set t v).filter p).length +
          (if p (l.getD t PC.done) then 1 else 0) =
        (l.filter p).length + (if p v then 1 else 0) := by
  induction l with
  | nil =>
    intro t v h
    exact absurd h (Nat.not_lt_zero t)
  | cons a l ih =>
    intro t v h
    cases t with
    | zero =>
      simp only [List.set, List.getD_cons_zero, List.filter_cons]
      by_cases hv : p v <;> by_cases ha : p a <;>
        simp [hv, ha]
    | succ t =>
      have h' : t < l.length := by simpa using h
      have hih := ih t v h'
      simp only [List.set, List.getD_cons_succ, List.filter_cons]
      by_cases ha : p a <;>
        simp only [List.getD_eq_getElem?_getD] at hih ⊢ <;>
        simp [ha] <;> omega

/-- Counting invariant: `del` plus the number of recorded causes plus
the number of in-flight tasks equals the number of deletion calls made
so far — each deletion call ends in exactly one of: the `del` increment
(success or duplicate-cause failure) or a first-time error recording. -/
def CountInv (s : SchedState) : Prop :=
  s.del + s.errs.length + (s.pcs.filter PC.isPending).length =
    (s.log.filter Event.isDeleteCall).length

theorem filter_isPending_replicate_start (n : Nat) :
    (List.replicate n PC.start).filter PC.isPending = [] := by
  induction n with
  | zero => rfl
  | succ n ih => simp [List.replicate_succ, List.filter_cons, PC.isPending, ih]

theorem initSched_countInv (refs : List String) :
    CountInv (initSched refs) := by
  rw [CountInv, initSched]
  simp [filter_isPending_replicate_start]

theorem stepTask_countInv (oracle : String → Option String)
    (refs : List String) (s : SchedState) (tt : Nat)
    (h : CountInv s) : CountInv (stepTask oracle refs s tt) := by
  rw [CountInv] at h
  rcases hpc : s.pcs.getD tt PC.done with _ | _ | c0 | _ | _ <;>
    simp only [stepTask, hpc] <;>
    rw [CountInv]
  case start =>
    have hlt := lt_of_getD_ne_done s.pcs tt (by rw [hpc]; simp)
    split
    · have hfs := length_filter_set s.pcs PC.isPending tt PC.toDelete hlt
      rw [hpc] at hfs
      simp [PC.isPending] at hfs
      simp [List.filter_append, Event.isDeleteCall]
      omega
    · have hfs := length_filter_set s.pcs PC.isPending tt PC.done hlt
      rw [hpc] at hfs
      simp [PC.isPending] at hfs
      simp [List.filter_append, Event.isDeleteCall]
      omega
  case toDelete =>
    have hlt := lt_of_getD_ne_done s.pcs tt (by rw [hpc]; simp)
    rcases oracle (refs.getD tt "") with _ | c0
    · have hfs := length_filter_set s.pcs PC.isPending tt PC.toInc hlt
      rw [hpc] at hfs
      simp [PC.isPending] at hfs
      simp [List.filter_append, Event.isDeleteCall]
      omega
    · have hfs := length_filter_set s.pcs PC.isPending tt (PC.toRecord c0) hlt
      rw [hpc] at hfs
      simp [PC.isPending] at hfs
      simp [List.filter_append, Event.isDeleteCall]
      omega
  case toRecord =>
    have hlt := lt_of_getD_ne_done s.pcs tt (by rw [hpc]; simp)
    split
    · have hfs := length_filter_set s.pcs PC.isPending tt PC.toInc hlt
      rw [hpc] at hfs
      simp [PC.isPending] at hfs
      simp [List.filter_append, Event.isDeleteCall]
      omega
    · have hfs := length_filter_set s.pcs PC.isPending tt PC.done hlt
      rw [hpc] at hfs
      simp [PC.isPending] at hfs
      simp [List.filter_append, Event.isDeleteCall]
      omega
  case toInc =>
    have hlt := lt_of_getD_ne_done s.pcs tt (by rw [hpc]; simp)
    have hfs := length_filter_set s.pcs PC.isPending tt PC.done hlt
    rw [hpc] at hfs
    simp [PC.isPending] at hfs
    simp [List.filter_append, Event.isDeleteCall]
    omega
  case done => exact h

theorem runSched_countInv (oracle : String → Option String)
    (refs : List String) (sched : List Nat) :
    CountInv (runSched oracle refs sched) :=
  runSchedFrom_inv oracle refs CountInv
    (fun s t h => stepTask_countInv oracle refs s t h) sched
    (initSched refs) (initSched_countInv refs)

theorem completed_filter_isPending (s : SchedState)
    (h : completed s = true) : s.pcs.filter PC.isPending = [] := by
  rw [List.filter_eq_nil_iff]
  intro pc hmem
  rw [completed, List.all_eq_true] at h
  have := (beq_done_iff pc).mp (h pc hmem)
  subst this
  simp [PC.isPending]

/-! ## Per-repository processing (cleaner.go lines 83–183) -/

/-- One status line of `Clean`, modelled structurally: the repository
name and the counts that `fmt.Sprintf` interpolates (the float rendering
of `getSize` is not modelled).  `dryRun` distinguishes the
"would be deleted" wording from the real one. -/
structure RepoReport where
  name : String
  del : Nat
  kept : Nat
  size : Int
  dryRun : Bool
  deriving Repr, DecidableEq

/-- The `for k, m := range tags.Manifests` selection pass: every
manifest is classified by `shouldDelete` (which also accumulates the
retained size into the running total); the deletable ones are collected
in iteration order. -/
def scanManifests (name : String) (keeping : List String) :
    List (String × ManifestInfo) → Int →
      List (String × ManifestInfo) × Int
  | [], total => ([], total)
  | (k, m) :: rest, total =>
    let bt := shouldDelete name m keeping total
    let r := scanManifests name keeping rest bt.2
    if bt.1 then ((k, m) :: r.1, r.2) else r

/-- Outcome of processing one child repository: status lines, collected
error strings, every reference passed to `deleteOne` (tag references
first, then digest references from the pool's log), and the keep-set /
tag-exception map after the walk (aliased in the Go code). -/
structure RepoResult where
  status : List RepoReport
  errStrings : List String
  deleteCalls : List String
  keepingAfter : List String
  deriving Repr, DecidableEq

/-- The digest references submitted to the pool for one repository. -/
def repoRefs (name : String) (deletables : List (String × ManifestInfo)) :
    List String :=
  deletables.map (fun km => name ++ "@" ++ km.1)

/-- The per-repository body of `Clean` (lines 100–183): build the keep
set, classify manifests; in dry mode count and report; in real mode
delete every tag reference of each deletable manifest (errors
discarded), run the pool over the digest references under the given
interleaving, then either collect the deduplicated error messages (no
status line) or emit the status line with the counters. -/
def processRepo (name : String) (repoExcept gte : List String)
    (keepAmt : Nat) (tagExcept : List String) (tags : Array String)
    (manifests : List (String × ManifestInfo)) (dry : Bool)
    (oracle : String → Option String) (sched : List Nat) : RepoResult :=
  let keeping := buildKeepSet name repoExcept gte keepAmt tagExcept tags
  let scan := scanManifests name keeping manifests 0
  if dry then
    { status := [⟨name, scan.1.length, manifests.length - scan.1.length,
        scan.2, true⟩],
      errStrings := [], deleteCalls := [], keepingAfter := keeping }
  else
    let tagCalls := scan.1.flatMap
      (fun km => km.2.tags.map (fun t => qualifiedTag name t))
    let st := runSched oracle (repoRefs name scan.1) sched
    let digestCalls := st.log.filterMap (fun e =>
      match e with
      | Event.deleteCall _ r _ => some r
      | _ => none)
    if st.errs.length > 0 then
      { status := [], errStrings := st.errs.map Prod.snd,
        deleteCalls := tagCalls ++ digestCalls, keepingAfter := keeping }
    else
      { status := [⟨name, st.del, manifests.length - st.del, scan.2,
          false⟩],
        errStrings := [],
        deleteCalls := tagCalls ++ digestCalls, keepingAfter := keeping }

/-! ### All-success runs -/

/-- State invariant of a pool whose oracle never fails: no errors, no
task at a recording step, and `del` counts exactly the finished tasks. -/
def SuccessState (s : SchedState) : Prop :=
  s.errs = [] ∧
  (∀ t c, s.pcs.getD t PC.done ≠ PC.toRecord c) ∧
  s.del = (s.pcs.filter (fun pc => pc == PC.done)).length

theorem filter_replicate_start (p : PC → Bool) (hp : p PC.start = false) :
    ∀ n : Nat, (List.replicate n PC.start).filter p = [] := by
  intro n
  induction n with
  | zero => rfl
  | succ n ih => simp [List.replicate_succ, List.filter_cons, hp, ih]

theorem initSched_successState (refs : List String) :
    SuccessState (initSched refs) := by
  refine ⟨rfl, ?_, ?_⟩
  · intro t c hrec
    have hsd : (List.replicate refs.length PC.start).getD t PC.done =
        PC.start ∨
        (List.replicate refs.length PC.start).getD t PC.done = PC.done := by
      by_cases hlt : t < refs.length
      · left
        rw [List.getD_eq_getElem _ _ (by simpa using hlt)]
        simp
      · right
        exact List.getD_eq_default _ _ (by simpa using Nat.le_of_not_lt hlt)
    have hrec' : (List.replicate refs.length PC.start).getD t PC.done =
        PC.toRecord c := hrec
    rcases hsd with h | h <;> rw [h] at hrec' <;> simp at hrec'
  · rw [initSched]
    rw [filter_replicate_start _ (by decide)]
    rfl

theorem length_filter_set_vals (l : List PC) (p : PC → Bool) (t : Nat)
    (v : PC) (h : t < l.length) (a b : Nat)
    (ha : (if p (l.getD t PC.done) then 1 else 0) = a)
    (hb : (if p v then 1 else 0) = b) :
    ((l.set t v).filter p).length + a = (l.filter p).length + b := by
  rw [← ha, ← hb]
  exact length_filter_set l p t v h

theorem stepTask_successState (oracle : String → Option String)
    (refs : List String) (hsucc : ∀ r, oracle r = none) (s : SchedState)
    (tt : Nat) (h : SuccessState s) :
    SuccessState (stepTask oracle refs s tt) := by
  obtain ⟨he, hnr, hd⟩ := h
  rcases hpc : s.pcs.getD tt PC.done with _ | _ | c0 | _ | _ <;>
    simp only [stepTask, hpc]
  case start =>
    rw [he]
    simp only [List.isEmpty_nil, if_true]
    have hlt := lt_of_getD_ne_done s.pcs tt (by rw [hpc]; simp)
    refine ⟨rfl, ?_, ?_⟩
    · intro t c hrec
      by_cases htt : t = tt
      · subst htt
        rw [getD_set_self_pc _ _ _ hlt] at hrec
        exact absurd hrec (by simp)
      · rw [getD_set_ne_pc _ _ _ _ htt] at hrec
        exact hnr t c hrec
    · have hfs := length_filter_set_vals s.pcs (fun pc => pc == PC.done) tt
        PC.toDelete hlt 0 0 (by rw [hpc]; decide) rfl
      show s.del =
        (List.filter (fun pc => pc == PC.done) (s.pcs.set tt PC.toDelete)).length
      rw [hd]
      omega
  case toDelete =>
    rw [hsucc (refs.getD tt "")]
    have hlt := lt_of_getD_ne_done s.pcs tt (by rw [hpc]; simp)
    refine ⟨he, ?_, ?_⟩
    · intro t c hrec
      by_cases htt : t = tt
      · subst htt
        rw [getD_set_self_pc _ _ _ hlt] at hrec
        exact absurd hrec (by simp)
      · rw [getD_set_ne_pc _ _ _ _ htt] at hrec
        exact hnr t c hrec
    · have hfs := length_filter_set_vals s.pcs (fun pc => pc == PC.done) tt
        PC.toInc hlt 0 0 (by rw [hpc]; decide) rfl
      show s.del =
        (List.filter (fun pc => pc == PC.done) (s.pcs.set tt PC.toInc)).length
      rw [hd]
      omega
  case toRecord => exact absurd hpc (hnr tt c0)
  case toInc =>
    have hlt := lt_of_getD_ne_done s.pcs tt (by rw [hpc]; simp)
    refine ⟨he, ?_, ?_⟩
    · intro t c hrec
      by_cases htt : t = tt
      · subst htt
        rw [getD_set_self_pc _ _ _ hlt] at hrec
        exact absurd hrec (by simp)
      · rw [getD_set_ne_pc _ _ _ _ htt] at hrec
        exact hnr t c hrec
    · have hfs := length_filter_set_vals s.pcs (fun pc => pc == PC.done) tt
        PC.done hlt 0 1 (by rw [hpc]; decide) rfl
      show s.del + 1 =
        (List.filter (fun pc => pc == PC.done) (s.pcs.set tt PC.done)).length
      rw [hd]
      omega
  case done => exact ⟨he, hnr, hd⟩

theorem runSched_successState (oracle : String → Option String)
    (refs : List String) (sched : List Nat) (hsucc : ∀ r, oracle r = none) :
    SuccessState (runSched oracle refs sched) :=
  runSchedFrom_inv oracle refs SuccessState
    (fun s t h => stepTask_successState oracle refs hsucc s t h) sched
    (initSched refs) (initSched_successState refs)

theorem runSched_pcs_length (oracle : String → Option String)
    (refs : List String) (sched : List Nat) :
    (runSched oracle refs sched).pcs.length = refs.length := by
  rw [runSched, runSchedFrom_pcs_length]
  simp [initSched]

/-- In a completed all-success pool, `del` equals the number of
submitted references. -/
theorem completed_success_del (oracle : String → Option String)
    (refs : List String) (sched : List Nat) (hsucc : ∀ r, oracle r = none)
    (hcomp : completed (runSched oracle refs sched) = true) :
    (runSched oracle refs sched).del = refs.length := by
  obtain ⟨-, -, hd⟩ := runSched_successState oracle refs sched hsucc
  rw [hd]
  have hself : (runSched oracle refs sched).pcs.filter
      (fun pc => pc == PC.done) = (runSched oracle refs sched).pcs := by
    rw [List.filter_eq_self]
    intro pc hmem
    rw [completed, List.all_eq_true] at hcomp
    exact hcomp pc hmem
  rw [hself, runSched_pcs_length]

/-- **C7.** A dry run issues zero deletion calls, and — whenever the
deletion capability succeeds on every reference (the only case in which
the counterfactual real run has well-defined counts, independent of the
interleaving) — a completed real run on the same input produces exactly
the same per-repository counts (deleted, kept, remaining size) and no
errors. -/
theorem dryRun_equiv (name : String) (repoExcept gte : List String)
    (keepAmt : Nat) (tagExcept : List String) (tags : Array String)
    (manifests : List (String × ManifestInfo))
    (oracle : String → Option String) (sched : List Nat)
    (hsucc : ∀ r, oracle r = none)
    (hcomp : completed (runSched oracle
      (repoRefs name (scanManifests name
        (buildKeepSet name repoExcept gte keepAmt tagExcept tags)
        manifests 0).1) sched) = true) :
    (processRepo name repoExcept gte keepAmt tagExcept tags manifests true
      oracle sched).deleteCalls = [] ∧
    (processRepo name repoExcept gte keepAmt tagExcept tags manifests false
      oracle sched).errStrings = [] ∧
    (processRepo name repoExcept gte keepAmt tagExcept tags manifests false
      oracle sched).status.map (fun rep => (rep.del, rep.kept, rep.size)) =
    (processRepo name repoExcept gte keepAmt tagExcept tags manifests true
      oracle sched).status.map (fun rep => (rep.del, rep.kept, rep.size)) := by
  have herr := (runSched_successState oracle
    (repoRefs name (scanManifests name
      (buildKeepSet name repoExcept gte keepAmt tagExcept tags)
      manifests 0).1) sched hsucc).1
  have hdel := completed_success_del oracle
    (repoRefs name (scanManifests name
      (buildKeepSet name repoExcept gte keepAmt tagExcept tags)
      manifests 0).1) sched hsucc hcomp
  have hlen : (repoRefs name (scanManifests name
      (buildKeepSet name repoExcept gte keepAmt tagExcept tags)
      manifests 0).1).length = (scanManifests name
      (buildKeepSet name repoExcept gte keepAmt tagExcept tags)
      manifests 0).1.length := List.length_map _ _
  refine ⟨rfl, ?_, ?_⟩
  · simp [processRepo, herr]
  · simp [processRepo, herr, hdel, hlen]

/-- **C7 witness.** Two tags with `keepAmt = 1`: manifests `d1`
(tag `t1`) and `d3` (untagged) are deletable, `d2` (tag `t2`) is kept;
the all-success real run under a complete schedule matches the dry
counts, and the dry run makes no deletion calls. -/
theorem dryRun_equiv_witness :
    (processRepo "b/r" [] [] 1 [] #["t1", "t2"]
      [("d1", ⟨["t1"], 10⟩), ("d2", ⟨["t2"], 20⟩), ("d3", ⟨[], 5⟩)] true
      (fun _ => none) [0, 0, 0, 1, 1, 1]).deleteCalls = [] ∧
    (processRepo "b/r" [] [] 1 [] #["t1", "t2"]
      [("d1", ⟨["t1"], 10⟩), ("d2", ⟨["t2"], 20⟩), ("d3", ⟨[], 5⟩)] false
      (fun _ => none) [0, 0, 0, 1, 1, 1]).errStrings = [] ∧
    (processRepo "b/r" [] [] 1 [] #["t1", "t2"]
      [("d1", ⟨["t1"], 10⟩), ("d2", ⟨["t2"], 20⟩), ("d3", ⟨[], 5⟩)] false
      (fun _ => none) [0, 0, 0, 1, 1, 1]).status.map
        (fun rep => (rep.del, rep.kept, rep.size)) =
    (processRepo "b/r" [] [] 1 [] #["t1", "t2"]
      [("d1", ⟨["t1"], 10⟩), ("d2", ⟨["t2"], 20⟩), ("d3", ⟨[], 5⟩)] true
      (fun _ => none) [0, 0, 0, 1, 1, 1]).status.map
        (fun rep => (rep.del, rep.kept, rep.size)) :=
  dryRun_equiv "b/r" [] [] 1 [] #["t1", "t2"]
    [("d1", ⟨["t1"], 10⟩), ("d2", ⟨["t2"], 20⟩), ("d3", ⟨[], 5⟩)]
    (fun _ => none) [0, 0, 0, 1, 1, 1] (fun _ => rfl) (by decide)

/-- **C10 (amended).** In a completed real run of one repository's pool,
`del` plus the number of distinct recorded causes equals the number of
deletion calls: every deletion call is counted in `del` except exactly
the first failure per distinct cause — so `del` does include
duplicate-cause failed deletions.  However, when the error map is empty
(the only case in which `Clean` emits the status line carrying `del`),
no deletion call failed at all: a *reported* count never includes a
failed deletion. -/
theorem delCounter_duplicate_failures (oracle : String → Option String)
    (refs : List String) (sched : List Nat)
    (hcomp : completed (runSched oracle refs sched) = true) :
    (runSched oracle refs sched).del +
        (runSched oracle refs sched).errs.length =
      ((runSched oracle refs sched).log.filter Event.isDeleteCall).length ∧
    ((runSched oracle refs sched).errs = [] →
      ∀ t r c, Event.deleteCall t r (some c) ∉
        (runSched oracle refs sched).log) := by
  constructor
  · have hci := runSched_countInv oracle refs sched
    rw [CountInv, completed_filter_isPending _ hcomp] at hci
    simpa using hci
  · intro herr t r c hm
    obtain ⟨-, -, -, hdel⟩ := runSched_dedupInv oracle refs sched
    rcases hdel t r c hm with hl | hr
    · rw [completed_getD _ hcomp t] at hl
      exact absurd hl (by simp)
    · rw [herr] at hr
      simp at hr

/-- **C10 witness.** Schedule in which both tasks pass the fail-fast
read before the first recording: both deletions fail with the same
cause, the duplicate-cause task still increments `del` (1 + 1 = 2
deletion calls). -/
theorem delCounter_duplicate_failures_witness :
    (runSched oracleFail ["b/r@d1", "b/r@d2"]
        [0, 0, 1, 1, 0, 1, 1]).del +
      (runSched oracleFail ["b/r@d1", "b/r@d2"]
        [0, 0, 1, 1, 0, 1, 1]).errs.length =
      ((runSched oracleFail ["b/r@d1", "b/r@d2"]
        [0, 0, 1, 1, 0, 1, 1]).log.filter Event.isDeleteCall).length :=
  (delCounter_duplicate_failures oracleFail ["b/r@d1", "b/r@d2"]
    [0, 0, 1, 1, 0, 1, 1] (by decide)).1

/-- **C10 counterexample.** Two untagged manifests, every deletion fails
with the same cause, and the interleaving lets both tasks pass their
fail-fast read: the duplicate-cause failure is counted (`del = 1`
despite 2 failed deletion calls and 1 recorded cause), yet the
repository emits *no* status line — the inflated count is never
reported, contradicting the claim that the reported count can include
failed deletions. -/
theorem deletedCount_not_reported_cex :
    (runSched oracleFail ["b/r@d1", "b/r@d2"]
      [0, 0, 1, 1, 0, 1, 1]).del = 1 ∧
    ((runSched oracleFail ["b/r@d1", "b/r@d2"]
      [0, 0, 1, 1, 0, 1, 1]).log.filter Event.isDeleteCall).length = 2 ∧
    ((runSched oracleFail ["b/r@d1", "b/r@d2"]
      [0, 0, 1, 1, 0, 1, 1]).log.filter (fun e =>
        match e with
        | Event.deleteCall _ _ none => true
        | _ => false) = []) ∧
    (runSched oracleFail ["b/r@d1", "b/r@d2"]
      [0, 0, 1, 1, 0, 1, 1]).errs.length = 1 ∧
    (processRepo "b/r" [] [] 5 [] #[] [("d1", ⟨[], 1⟩), ("d2", ⟨[], 2⟩)]
      false oracleFail [0, 0, 1, 1, 0, 1, 1]).status = [] := by
  exact ⟨by decide, by decide, by decide, by decide, by decide⟩

/-! ## The run coordinator (cleaner.go lines 63–195) -/

/-- What fetching one child repository yields: `gcrname.NewRepository`
failure, `gcrgoogle.List` failure, or the tag/manifest listing. -/
inductive ChildFetch where
  | resolveErr (msg : String)
  | listErr (msg : String)
  | ok (tags : Array String) (manifests : List (String × ManifestInfo))

/-- One child repository of the run: its name, its fetch outcome, the
behaviour of the deletion capability on its references, and the
interleaving of its worker pool. -/
structure ChildSpec where
  child : String
  fetch : ChildFetch
  oracle : String → Option String
  sched : List Nat

/-- One iteration of the `for _, r := range repos.Children` loop:
errors from resolving or listing are collected as strings and the
repository is skipped (`continue`); otherwise the repository is
processed.  Returns (status lines, error strings, the tag-exception map
after — mutated through the `keeping` alias in the Go code).  The exact
rendering of the stray `%w` verb in the Go format strings is not
modelled. -/
def processChild (base : String) (repoExcept gte : List String)
    (keepAmt : Nat) (dry : Bool) (tagExcept : List String)
    (cs : ChildSpec) : List RepoReport × List String × List String :=
  let name := base ++ "/" ++ cs.child
  match cs.fetch with
  | ChildFetch.resolveErr msg =>
    ([], ["Failed to get child repo " ++ name ++ ": " ++ msg], tagExcept)
  | ChildFetch.listErr msg =>
    ([], ["Failed to list tags for child repo " ++ name ++ ": " ++ msg],
      tagExcept)
  | ChildFetch.ok tags manifests =>
    let r := processRepo name repoExcept gte keepAmt tagExcept tags
      manifests dry cs.oracle cs.sched
    (r.status, r.errStrings, r.keepingAfter)

/-- The child loop: fold `processChild` over the children, threading the
(aliased, hence accumulated) tag-exception map and concatenating status
lines and error strings in order. -/
def cleanChildren (base : String) (repoExcept gte : List String)
    (keepAmt : Nat) (dry : Bool) :
    List ChildSpec → List String →
      List RepoReport × List String × List String
  | [], tagExcept => ([], [], tagExcept)
  | cs :: rest, tagExcept =>
    let h := processChild base repoExcept gte keepAmt dry tagExcept cs
    let t := cleanChildren base repoExcept gte keepAmt dry rest h.2.2
    (h.1 ++ t.1, h.2.1 ++ t.2.1, t.2.2)

/-- The final error of `Clean` (lines 186–194): `nil` when no error
string was collected, the lone message when there is exactly one, and
otherwise `"<n> errors occurred: "` with the messages joined by
`", "`. -/
def aggregateErr : List String → Option String
  | [] => none
  | [e] => some e
  | es => some (toString es.length ++ " errors occurred: " ++
      String.intercalate ", " es)

/-- `Cleaner.Clean`: run the child loop and aggregate the errors. -/
def cleanRun (base : String) (repoExcept gte : List String)
    (keepAmt : Nat) (dry : Bool) (tagExcept0 : List String)
    (children : List ChildSpec) : List RepoReport × Option String :=
  let r := cleanChildren base repoExcept gte keepAmt dry children tagExcept0
  (r.1, aggregateErr r.2.1)

theorem cleanChildren_append (base : String) (repoExcept gte : List String)
    (keepAmt : Nat) (dry : Bool) (l1 l2 : List ChildSpec) :
    ∀ tagExcept : List String,
      cleanChildren base repoExcept gte keepAmt dry (l1 ++ l2) tagExcept =
        ((cleanChildren base repoExcept gte keepAmt dry l1 tagExcept).1 ++
          (cleanChildren base repoExcept gte keepAmt dry l2
            (cleanChildren base repoExcept gte keepAmt dry l1
              tagExcept).2.2).1,
        (cleanChildren base repoExcept gte keepAmt dry l1 tagExcept).2.1 ++
          (cleanChildren base repoExcept gte keepAmt dry l2
            (cleanChildren base repoExcept gte keepAmt dry l1
              tagExcept).2.2).2.1,
        (cleanChildren base repoExcept gte keepAmt dry l2
          (cleanChildren base repoExcept gte keepAmt dry l1
            tagExcept).2.2).2.2) := by
  induction l1 with
  | nil =>
    intro tagExcept
    simp [cleanChildren]
  | cons cs rest ih =>
    intro tagExcept
    simp [cleanChildren, ih, List.append_assoc]

theorem processChild_noerr_status (base : String)
    (repoExcept gte : List String) (keepAmt : Nat) (dry : Bool)
    (tagExcept : List String) (cs : ChildSpec)
    (h : (processChild base repoExcept gte keepAmt dry tagExcept cs).2.1 =
      []) :
    ∃ rep, (processChild base repoExcept gte keepAmt dry tagExcept cs).1 =
      [rep] := by
  obtain ⟨child, fetch, orc, sch⟩ := cs
  cases fetch with
  | resolveErr msg => exact absurd h (by simp [processChild])
  | listErr msg => exact absurd h (by simp [processChild])
  | ok tags manifests =>
    simp only [processChild] at h ⊢
    cases dry with
    | true => exact ⟨_, rfl⟩
    | false =>
      rw [processRepo] at h ⊢
      simp only [Bool.false_eq_true, if_false] at h ⊢
      split at h
      case isTrue hgt => simp_all
      case isFalse hgt =>
        rw [if_neg hgt]
        exact ⟨_, rfl⟩

theorem aggregateErr_eq_none_iff (es : List String) :
    aggregateErr es = none ↔ es = [] := by
  rcases es with _ | ⟨e, _ | ⟨e2, es'⟩⟩ <;> simp [aggregateErr]

/-- **C8.** Per-repository failures are collected, the repository is
skipped, and the rest of the run proceeds exactly as if the failed child
were absent (same statuses, same threaded state); every successfully
processed repository (empty per-child error strings) contributes exactly
one status line to the run's result; and the run carries a final error
precisely when at least one error string was collected — the lone
message verbatim for a single error, the count with the joined messages
otherwise. -/
theorem runCoordinator_errors (base : String) (repoExcept gte : List String)
    (keepAmt : Nat) (dry : Bool) :
    (∀ (cs : ChildSpec) (rest : List ChildSpec) (tagExcept : List String)
        (msg : String), cs.fetch = ChildFetch.resolveErr msg →
      cleanChildren base repoExcept gte keepAmt dry (cs :: rest) tagExcept =
        ((cleanChildren base repoExcept gte keepAmt dry rest tagExcept).1,
          ("Failed to get child repo " ++ (base ++ "/" ++ cs.child) ++
            ": " ++ msg) ::
            (cleanChildren base repoExcept gte keepAmt dry rest
              tagExcept).2.1,
          (cleanChildren base repoExcept gte keepAmt dry rest
            tagExcept).2.2)) ∧
    (∀ (cs : ChildSpec) (rest : List ChildSpec) (tagExcept : List String)
        (msg : String), cs.fetch = ChildFetch.listErr msg →
      cleanChildren base repoExcept gte keepAmt dry (cs :: rest) tagExcept =
        ((cleanChildren base repoExcept gte keepAmt dry rest tagExcept).1,
          ("Failed to list tags for child repo " ++ (base ++ "/" ++
            cs.child) ++ ": " ++ msg) ::
            (cleanChildren base repoExcept gte keepAmt dry rest
              tagExcept).2.1,
          (cleanChildren base repoExcept gte keepAmt dry rest
            tagExcept).2.2)) ∧
    (∀ (pre post : List ChildSpec) (cs : ChildSpec)
        (tagExcept : List String),
      (processChild base repoExcept gte keepAmt dry
        (cleanChildren base repoExcept gte keepAmt dry pre
          tagExcept).2.2 cs).2.1 = [] →
      ∃ rep, (processChild base repoExcept gte keepAmt dry
          (cleanChildren base repoExcept gte keepAmt dry pre
            tagExcept).2.2 cs).1 = [rep] ∧
        rep ∈ (cleanRun base repoExcept gte keepAmt dry tagExcept
          (pre ++ cs :: post)).1) ∧
    (∀ (children : List ChildSpec) (tagExcept : List String),
      (cleanRun base repoExcept gte keepAmt dry tagExcept children).2 ≠
          none ↔
        (cleanChildren base repoExcept gte keepAmt dry children
          tagExcept).2.1 ≠ []) ∧
    (∀ (children : List ChildSpec) (tagExcept : List String) (e : String),
      (cleanChildren base repoExcept gte keepAmt dry children
        tagExcept).2.1 = [e] →
      (cleanRun base repoExcept gte keepAmt dry tagExcept children).2 =
        some e) ∧
    (∀ (children : List ChildSpec) (tagExcept : List String)
        (e1 e2 : String) (es : List String),
      (cleanChildren base repoExcept gte keepAmt dry children
        tagExcept).2.1 = e1 :: e2 :: es →
      (cleanRun base repoExcept gte keepAmt dry tagExcept children).2 =
        some (toString (e1 :: e2 :: es).length ++ " errors occurred: " ++
          String.intercalate ", " (e1 :: e2 :: es))) := by
  refine ⟨?_, ?_, ?_, ?_, ?_, ?_⟩
  · intro cs rest tagExcept msg hf
    simp [cleanChildren, processChild, hf]
  · intro cs rest tagExcept msg hf
    simp [cleanChildren, processChild, hf]
  · intro pre post cs tagExcept hne
    obtain ⟨rep, hrep⟩ := processChild_noerr_status base repoExcept gte
      keepAmt dry _ cs hne
    refine ⟨rep, hrep, ?_⟩
    rw [cleanRun]
    simp only [cleanChildren_append]
    apply List.mem_append_right
    show rep ∈ (cleanChildren base repoExcept gte keepAmt dry
      (cs :: post) _).1
    rw [cleanChildren]
    apply List.mem_append_left
    rw [hrep]
    exact List.mem_singleton_self rep
  · intro children tagExcept
    rw [cleanRun]
    constructor
    · intro hne hnil
      exact hne ((aggregateErr_eq_none_iff _).mpr hnil)
    · intro hne hnone
      exact hne ((aggregateErr_eq_none_iff _).mp hnone)
  · intro children tagExcept e heq
    rw [cleanRun]
    show aggregateErr _ = some e
    rw [heq]
    rfl
  · intro children tagExcept e1 e2 es heq
    rw [cleanRun]
    show aggregateErr _ = some _
    rw [heq]
    rfl

/-- **C8 witness.** A run with a failing child followed by a healthy
child: the failure is collected as one error string and skipped, the
healthy child still contributes its status line, and the final error is
present exactly because one error string was collected. -/
theorem runCoordinator_errors_witness :
    (cleanChildren "b" [] [] 1 true
        [⟨"rb", ChildFetch.resolveErr "boom", fun _ => none, []⟩] [] =
      ((cleanChildren "b" [] [] 1 true [] []).1,
        ("Failed to get child repo " ++ ("b" ++ "/" ++ "rb") ++ ": " ++
          "boom") :: (cleanChildren "b" [] [] 1 true [] []).2.1,
        (cleanChildren "b" [] [] 1 true [] []).2.2)) ∧
    (cleanChildren "b" [] [] 1 true
        [⟨"rl", ChildFetch.listErr "nope", fun _ => none, []⟩] [] =
      ((cleanChildren "b" [] [] 1 true [] []).1,
        ("Failed to list tags for child repo " ++ ("b" ++ "/" ++ "rl") ++
          ": " ++ "nope") :: (cleanChildren "b" [] [] 1 true [] []).2.1,
        (cleanChildren "b" [] [] 1 true [] []).2.2)) ∧
    ((cleanRun "b" [] [] 1 true []
        [⟨"rb", ChildFetch.resolveErr "boom", fun _ => none, []⟩]).2 =
      some ("Failed to get child repo " ++ ("b" ++ "/" ++ "rb") ++ ": " ++
        "boom")) ∧
    ((cleanRun "b" [] [] 1 true []
        [⟨"rb", ChildFetch.resolveErr "boom", fun _ => none, []⟩,
         ⟨"rl", ChildFetch.listErr "nope", fun _ => none, []⟩]).2 =
      some (toString
          (("Failed to get child repo " ++ ("b" ++ "/" ++ "rb") ++ ": " ++
            "boom") ::
            ("Failed to list tags for child repo " ++ ("b" ++ "/" ++
              "rl") ++ ": " ++ "nope") :: ([] : List String)).length ++
        " errors occurred: " ++ String.intercalate ", "
          (("Failed to get child repo " ++ ("b" ++ "/" ++ "rb") ++ ": " ++
            "boom") ::
            ("Failed to list tags for child repo " ++ ("b" ++ "/" ++
              "rl") ++ ": " ++ "nope") :: ([] : List String)))) :=
  ⟨(runCoordinator_errors "b" [] [] 1 true).1
      ⟨"rb", ChildFetch.resolveErr "boom", fun _ => none, []⟩ [] [] "boom"
      rfl,
    (runCoordinator_errors "b" [] [] 1 true).2.1
      ⟨"rl", ChildFetch.listErr "nope", fun _ => none, []⟩ [] [] "nope"
      rfl,
    (runCoordinator_errors "b" [] [] 1 true).2.2.2.2.1
      [⟨"rb", ChildFetch.resolveErr "boom", fun _ => none, []⟩] []
      ("Failed to get child repo " ++ ("b" ++ "/" ++ "rb") ++ ": " ++
        "boom") rfl,
    (runCoordinator_errors "b" [] [] 1 true).2.2.2.2.2
      [⟨"rb", ChildFetch.resolveErr "boom", fun _ => none, []⟩,
       ⟨"rl", ChildFetch.listErr "nope", fun _ => none, []⟩] []
      ("Failed to get child repo " ++ ("b" ++ "/" ++ "rb") ++ ": " ++
        "boom")
      ("Failed to list tags for child repo " ++ ("b" ++ "/" ++ "rl") ++
        ": " ++ "nope") [] rfl⟩

/-- **C9 (code evaluated at the failing input).** The retention walk
writes into the shared tag-exception map: `var keeping = c.tagExcept`
aliases the map, so after processing child `r1` (two tags, keep one) the
cleaner's tag-exception set — empty at the start of the run — contains
`b/r1:v2`, and the keep set of the later child `r2` starts from that
accumulated map.  The exception set is *not* immutable for the duration
of the run and the keep set is *not* fresh per repository. -/
theorem tagExcept_mutated_by_retention :
    ([] : List String).contains "b/r1:v2" = false ∧
    (cleanChildren "b" [] [] 1 true
        [⟨"r1", ChildFetch.ok #["v1", "v2"] [("d1", ⟨["v1"], 1⟩)],
          fun _ => none, []⟩] []).2.2.contains "b/r1:v2" = true ∧
    (cleanChildren "b" [] [] 1 true
        [⟨"r1", ChildFetch.ok #["v1", "v2"] [("d1", ⟨["v1"], 1⟩)],
          fun _ => none, []⟩,
         ⟨"r2", ChildFetch.ok #["w1"] [], fun _ => none, []⟩] []).2.2 =
      ["b/r2:w1", "b/r1:v2"] := by
  refine ⟨rfl, rfl, rfl⟩

end GcrCleaner
